import Mathlib

/-!
Verification of the Warm Saturation DSP core (Source/SaturationDSP.h and
Source/PluginProcessor.cpp).

The C++ code is shallowly embedded over the real numbers: `float` values become
`ℝ`, `std::vector` per-channel state becomes `List ℝ`, audio buffers become
`List (List ℝ)` (channels of sample rows), and the `juce::Random` generator is
modelled as an ambient stream `ℕ → ℝ` of `nextFloat` draws consumed through a
cursor stored in the generator state.  JUCE library components whose source is
not part of this repository (`juce::dsp::Gain`, the IIR tone filter,
`juce::Decibels`) are either abstracted as function parameters or modelled from
the spec, as flagged in their doc comments.  Fallible vector indexing is
modelled with `Option`.
-/

namespace Saturation

/-- Tube waveshaping transfer function, from `TubeSaturation::tubeWaveshape`
(SaturationDSP.h lines 245-251 and the identical tilt variant lines 580-586):
`bias = 0.15`, `saturated = tanh x`, `evenHarmonics = bias * (x*x) / (1 + |x|)`. -/
noncomputable def tubeWaveshape (x : ℝ) : ℝ :=
  let bias : ℝ := 0.15
  let saturated := Real.tanh x
  let evenHarmonics := bias * (x * x) / (1 + |x|)
  saturated + evenHarmonics

/-- Reference waveshaper written from the spec text (section 4.1):
`shape(x) = tanh(x) + bias * x^2 / (1 + |x|)` with `bias = 0.15`.  Used only to
compare against the source-derived `tubeWaveshape`. -/
noncomputable def shapeSpec (x : ℝ) : ℝ :=
  Real.tanh x + 0.15 * x ^ 2 / (1 + |x|)

/-- Constant noise-floor ratio, from `addAnalogNoise` (line 283). -/
def floorRatio : ℝ := 0.15

/-- Signal-dependent noise ratio, from `addAnalogNoise` (line 284). -/
def signalRatio : ℝ := 0.85

/-- Modelled from the spec: `juce::Decibels::decibelsToGain` is JUCE library
code not present in this repository; spec section 4.5 step 4 describes it as
converting a dB value to a linear gain, i.e. `10 ^ (dB / 20)`. -/
noncomputable def decibelsToGain (db : ℝ) : ℝ :=
  Real.rpow 10 (db / 20)

/-- Per-sample noise level, from `addAnalogNoise` (lines 317-318):
`clampedEnv = jmin (env, 1.0f)`;
`noiseLevel = noiseGain * (floorRatio + signalRatio * clampedEnv)`. -/
noncomputable def noiseLevelAt (noiseGain env : ℝ) : ℝ :=
  noiseGain * (floorRatio + signalRatio * min env 1)

/-- Number of pink-noise rows, from `PinkNoiseGenerator::numRows` (line 57). -/
def numRows : ℕ := 12

/-- State of `PinkNoiseGenerator` (lines 56-61): the 12 rows, the running sum,
and the update counter.  The member `juce::Random random` is library code;
it is modelled as an ambient stream of `nextFloat` draws (values in `[0,1)`)
indexed by the cursor `rngIdx`, which advances by one per draw. -/
structure PinkNoiseGenerator where
  rows : List ℝ
  runningSum : ℝ
  counter : ℕ
  rngIdx : ℕ

/-- The row-update loop of `PinkNoiseGenerator::nextSample` (lines 39-47):
for each row index with a set bit in `diff`, subtract the old row value from
the running sum, draw a fresh value `nextFloat * 2 - 1`, store it and add it
back.  The triple carried is `(rows, runningSum, rngIdx)`. -/
def rowLoop (rng : ℕ → ℝ) (diff : ℕ) :
    List ℕ → List ℝ × ℝ × ℕ → List ℝ × ℝ × ℕ
  | [], st => st
  | i :: rest, (rows, sum, idx) =>
      if Nat.testBit diff i then
        let fresh := 2 * rng idx - 1
        rowLoop rng diff rest (rows.set i fresh, sum - rows.getD i 0 + fresh, idx + 1)
      else
        rowLoop rng diff rest (rows, sum, idx)

/-- `PinkNoiseGenerator::nextSample` (lines 32-54): increment the counter,
XOR old and new counter values, update the rows whose bits changed, draw one
further white-noise value, and return `(runningSum + white) / (numRows + 1)`.
The C++ counter is a machine `int`; it is modelled as `ℕ` (the spec fixes the
contract to behavior before wrap). -/
noncomputable def PinkNoiseGenerator.nextSample (rng : ℕ → ℝ)
    (g : PinkNoiseGenerator) : ℝ × PinkNoiseGenerator :=
  let lastCounter := g.counter
  let counter' := lastCounter + 1
  let diff := lastCounter ^^^ counter'
  let res := rowLoop rng diff (List.range numRows) (g.rows, g.runningSum, g.rngIdx)
  let white := 2 * rng res.2.2 - 1
  ((res.2.1 + white) / (numRows + 1 : ℝ),
   ⟨res.1, res.2.1, counter', res.2.2 + 1⟩)

/-- `PinkNoiseGenerator::reset` (lines 23-30): zero all rows, the running sum
and the counter.  The draw cursor is also restarted. -/
def PinkNoiseGenerator.reset (_g : PinkNoiseGenerator) : PinkNoiseGenerator :=
  ⟨List.replicate numRows 0, 0, 0, 0⟩

/-- A multichannel audio buffer: one list of samples per channel. -/
abbrev Buffer := List (List ℝ)

/-- State of the `TubeSaturation` class of the low-pass/noise variant
(lines 350-372).  The `juce::dsp::Gain` members hold only library-internal
ramp state and are not part of the state modelled here; the tone filter's
library coefficient record is kept abstractly as `toneCoeffs`. -/
structure TubeSaturation where
  sampleRate : ℝ
  numChannels : ℕ
  mix : ℝ
  toneFrequency : ℝ
  noiseAmount : ℝ
  noiseHPFrequency : ℝ
  noiseHPAlpha : ℝ
  envelopeAttack : ℝ
  envelopeRelease : ℝ
  toneCoeffs : ℝ × ℝ × ℝ × ℝ × ℝ
  envelopeState : List ℝ
  noiseHPState : List ℝ
  noiseHPPrevInput : List ℝ
  pinkNoise : List PinkNoiseGenerator
  dryChannels : ℕ
  maxBlockSize : ℕ

/-- `TubeSaturation::setMix` (lines 149-152): stores the argument as is. -/
def TubeSaturation.setMix (s : TubeSaturation) (newMix : ℝ) : TubeSaturation :=
  { s with mix := newMix }

/-- `TubeSaturation::setNoise` (lines 162-165): stores the argument as is. -/
def TubeSaturation.setNoise (s : TubeSaturation) (newNoise : ℝ) : TubeSaturation :=
  { s with noiseAmount := newNoise }

/-- `TubeSaturation::updateToneFilter` (lines 329-336): when the sample rate is
positive, replace the tone-filter coefficients with the result of the JUCE
library call `IIR::Coefficients::makeLowPass (sampleRate, toneFrequency, 0.707)`;
otherwise leave the state untouched.  The library coefficient computation is
not part of this repository and is abstracted as the parameter `makeLowPass`. -/
noncomputable def TubeSaturation.updateToneFilter (s : TubeSaturation)
    (makeLowPass : ℝ → ℝ → ℝ → ℝ × ℝ × ℝ × ℝ × ℝ) : TubeSaturation :=
  if 0 < s.sampleRate then
    { s with toneCoeffs := makeLowPass s.sampleRate s.toneFrequency 0.707 }
  else s

/-- `TubeSaturation::updateNoiseHPCoefficients` (lines 338-348): when the
sample rate is positive, recompute `alpha = rc / (rc + dt)` with
`rc = 1 / (2 pi * noiseHPFrequency)` and `dt = 1 / sampleRate`; otherwise
leave the state untouched. -/
noncomputable def TubeSaturation.updateNoiseHPCoefficients
    (s : TubeSaturation) : TubeSaturation :=
  if 0 < s.sampleRate then
    let rc := 1 / (2 * Real.pi * s.noiseHPFrequency)
    let dt := 1 / s.sampleRate
    { s with noiseHPAlpha := rc / (rc + dt) }
  else s

/-- `TubeSaturation::setTone` (lines 155-159): store the cutoff and recompute
the tone-filter coefficients. -/
noncomputable def TubeSaturation.setTone (s : TubeSaturation)
    (makeLowPass : ℝ → ℝ → ℝ → ℝ × ℝ × ℝ × ℝ × ℝ)
    (frequencyHz : ℝ) : TubeSaturation :=
  TubeSaturation.updateToneFilter { s with toneFrequency := frequencyHz } makeLowPass

/-- `TubeSaturation::setNoiseHP` (lines 169-173): store the cutoff and
recompute the noise high-pass coefficient. -/
noncomputable def TubeSaturation.setNoiseHP (s : TubeSaturation)
    (frequencyHz : ℝ) : TubeSaturation :=
  TubeSaturation.updateNoiseHPCoefficients { s with noiseHPFrequency := frequencyHz }

/-- Per-channel inner loop of `addAnalogNoise` (lines 296-321): for every
sample, update the envelope follower with attack/release smoothing, draw a
pink-noise sample, high-pass it with `y[n] = alpha * (y[n-1] + x[n] - x[n-1])`,
and add `filteredNoise * noiseLevel` to the sample.  Returns the processed
samples and the final `(env, hpY, hpX, generator)` channel state. -/
noncomputable def noiseChannelLoop (rng1 : ℕ → ℝ) (attack release alpha gain : ℝ) :
    List ℝ → ℝ → ℝ → ℝ → PinkNoiseGenerator →
    List ℝ × ℝ × ℝ × ℝ × PinkNoiseGenerator
  | [], env, hpY, hpX, gen => ([], env, hpY, hpX, gen)
  | x :: xs, env, hpY, hpX, gen =>
      let absSignal := |x|
      let env' := if env < absSignal
        then attack * env + (1 - attack) * absSignal
        else release * env + (1 - release) * absSignal
      let pn := PinkNoiseGenerator.nextSample rng1 gen
      let rawNoise := pn.1
      let filteredNoise := alpha * (hpY + rawNoise - hpX)
      let level := noiseLevelAt gain env'
      let rest := noiseChannelLoop rng1 attack release alpha gain xs
        env' filteredNoise rawNoise pn.2
      ((x + filteredNoise * level) :: rest.1, rest.2)

/-- Channel loop of `addAnalogNoise` (lines 288-326): per channel, read the
per-channel envelope, high-pass and pink-noise state (out-of-bounds reads are
modelled as failure), run the sample loop, and write the final channel state
back.  Carries `(envs, hpYs, hpXs, gens)`. -/
noncomputable def addAnalogNoiseGo (rng : ℕ → ℕ → ℝ)
    (attack release alpha gain : ℝ) :
    ℕ → List (List ℝ) → List ℝ → List ℝ → List ℝ → List PinkNoiseGenerator →
    Option (List (List ℝ) × List ℝ × List ℝ × List ℝ × List PinkNoiseGenerator)
  | _, [], envs, hpYs, hpXs, gens => some ([], envs, hpYs, hpXs, gens)
  | ch, row :: rest, envs, hpYs, hpXs, gens =>
      match envs[ch]?, hpYs[ch]?, hpXs[ch]?, gens[ch]? with
      | some env, some hpY, some hpX, some gen =>
          let r := noiseChannelLoop (rng ch) attack release alpha gain row env hpY hpX gen
          match addAnalogNoiseGo rng attack release alpha gain (ch + 1) rest
              (envs.set ch r.2.1) (hpYs.set ch r.2.2.1)
              (hpXs.set ch r.2.2.2.1) (gens.set ch r.2.2.2.2) with
          | some out => some (r.1 :: out.1, out.2)
          | none => none
      | _, _, _, _ => none

/-- `TubeSaturation::addAnalogNoise` (lines 272-327): map the noise amount to
`-60 dB .. -30 dB`, convert to linear gain, and run the channel loop over the
buffer, updating the per-channel state vectors. -/
noncomputable def TubeSaturation.addAnalogNoise (rng : ℕ → ℕ → ℝ)
    (s : TubeSaturation) (buffer : Buffer) : Option (Buffer × TubeSaturation) :=
  let noiseGainDb := -60 + s.noiseAmount * 30
  let noiseGain := decibelsToGain noiseGainDb
  match addAnalogNoiseGo rng s.envelopeAttack s.envelopeRelease s.noiseHPAlpha
      noiseGain 0 buffer s.envelopeState s.noiseHPState s.noiseHPPrevInput
      s.pinkNoise with
  | some out => some (out.1,
      { s with envelopeState := out.2.1, noiseHPState := out.2.2.1,
               noiseHPPrevInput := out.2.2.2.1, pinkNoise := out.2.2.2.2 })
  | none => none

/-- The waveshaping stage of `process` (lines 192-199): apply `tubeWaveshape`
to every sample of every channel. -/
noncomputable def waveshapeBuffer (b : Buffer) : Buffer :=
  b.map (fun row => row.map tubeWaveshape)

/-- The dry/wet blend of `process` (lines 218-227):
`wet[i] = dry[i] * (1 - mix) + wet[i] * mix` per channel, per sample. -/
def mixBlend (mix : ℝ) (dry wet : Buffer) : Buffer :=
  List.zipWith (fun d w => List.zipWith (fun dv wv => dv * (1 - mix) + wv * mix) d w)
    dry wet

/-- `TubeSaturation::process` (lines 175-229). The dry copy into `dryBuffer`
requires every channel and sample index to fit the buffer sized at prepare
time (`dryChannels` channels by `maxBlockSize` samples); a violating call hits
an out-of-bounds `copyFrom` and is modelled as failure.  The JUCE library
stages (`preGain.process`, `toneFilter.process`, `postGain.process`) are not
part of this repository and are abstracted as the buffer transforms `preG`,
`toneF` and `postG`.  The noise stage runs only when `0 < noiseAmount`
(line 207); the blend runs only when `mix < 1` (line 216). -/
noncomputable def TubeSaturation.process (preG toneF postG : Buffer → Buffer)
    (rng : ℕ → ℕ → ℝ) (s : TubeSaturation) (buffer : Buffer) :
    Option (Buffer × TubeSaturation) :=
  if buffer.length ≤ s.dryChannels ∧ ∀ row ∈ buffer, row.length ≤ s.maxBlockSize then
    let dry := buffer
    let b2 := waveshapeBuffer (preG buffer)
    let b3 := toneF b2
    match (if 0 < s.noiseAmount then TubeSaturation.addAnalogNoise rng s b3
           else some (b3, s)) with
    | some out =>
        let wet := postG out.1
        some ((if s.mix < 1 then mixBlend s.mix dry wet else wet), out.2)
    | none => none
  else none

/-- Modelled from the spec: the same pipeline as `TubeSaturation.process` with
the noise-injection stage entirely removed (spec section 8: "output identical
to the same pipeline with noise injection entirely removed").  Reference
definition for claim C4 only. -/
noncomputable def TubeSaturation.processNoNoise (preG toneF postG : Buffer → Buffer)
    (s : TubeSaturation) (buffer : Buffer) : Option (Buffer × TubeSaturation) :=
  if buffer.length ≤ s.dryChannels ∧ ∀ row ∈ buffer, row.length ≤ s.maxBlockSize then
    let dry := buffer
    let b2 := waveshapeBuffer (preG buffer)
    let b3 := toneF b2
    let wet := postG b3
    some ((if s.mix < 1 then mixBlend s.mix dry wet else wet), s)
  else none

/-- State of the `TiltEQ` class of the tilt variant (lines 455-460):
sample rate, current tilt, first-order shelf coefficients, and per-channel
delay lines `x1`, `y1`. -/
structure TiltEQ where
  sampleRate : ℝ
  tilt : ℝ
  a0 : ℝ
  a1 : ℝ
  b1 : ℝ
  x1 : List ℝ
  y1 : List ℝ

/-- `TiltEQ::updateCoefficients` (lines 432-453): pivot 800 Hz,
`wc = 2 pi * 800 / sampleRate`, `gain = 10 ^ (tilt * 6 / 20)`,
`tanW = tan (wc * 0.5)`, `t = tanW / gain`, and the three shelf coefficients.
Note there is no positivity guard on the sample rate here. -/
noncomputable def TiltEQ.updateCoefficients (s : TiltEQ) : TiltEQ :=
  let pivotHz : ℝ := 800
  let wc := 2 * Real.pi * pivotHz / s.sampleRate
  let gainDb := s.tilt * 6
  let gain := Real.rpow 10 (gainDb / 20)
  let g := gain
  let tanW := Real.tan (wc * 0.5)
  let t := tanW / g
  { s with a0 := (tanW * g + 1) / (t + 1),
           a1 := (tanW * g - 1) / (t + 1),
           b1 := (t - 1) / (t + 1) }

/-- `TiltEQ::setTilt` (lines 413-420): only when the new tilt differs from the
stored one by more than 0.001 does it store the tilt and recompute the
coefficients; otherwise the state is untouched. -/
noncomputable def TiltEQ.setTilt (s : TiltEQ) (newTilt : ℝ) : TiltEQ :=
  if 0.001 < |newTilt - s.tilt| then
    TiltEQ.updateCoefficients { s with tilt := newTilt }
  else s

/-- `TiltEQ::processSample` (lines 422-429):
`output = a0 * input + a1 * x1[ch] - b1 * y1[ch]`, then shift the delays. -/
def TiltEQ.processSample (s : TiltEQ) (ch : ℕ) (input : ℝ) : ℝ × TiltEQ :=
  let output := s.a0 * input + s.a1 * s.x1.getD ch 0 - s.b1 * s.y1.getD ch 0
  (output, { s with x1 := s.x1.set ch input, y1 := s.y1.set ch output })

/-- Folding `TiltEQ::processSample` over a sequence of inputs on one channel,
as the per-sample loop of the tilt variant's `process` does (lines 545-553). -/
def TiltEQ.processSeq (ch : ℕ) : TiltEQ → List ℝ → List ℝ × TiltEQ
  | s, [] => ([], s)
  | s, x :: xs =>
      let st := TiltEQ.processSample s ch x
      let rest := TiltEQ.processSeq ch st.2 xs
      (st.1 :: rest.1, rest.2)

/-- A concrete mono engine state as `prepare` would build it at 44.1 kHz with
one channel and a block size of 8 (envelope coefficients left at 0, which only
matters to claims that do not read them). -/
def sampleState : TubeSaturation :=
  { sampleRate := 44100, numChannels := 1, mix := 1, toneFrequency := 12000,
    noiseAmount := 0, noiseHPFrequency := 80, noiseHPAlpha := 0,
    envelopeAttack := 0, envelopeRelease := 0, toneCoeffs := (0, 0, 0, 0, 0),
    envelopeState := [0], noiseHPState := [0], noiseHPPrevInput := [0],
    pinkNoise := [⟨List.replicate numRows 0, 0, 0, 0⟩],
    dryChannels := 1, maxBlockSize := 8 }

/-- A concrete mono `TiltEQ` state at 44.1 kHz, flat tilt, default identity
coefficients and zeroed delays. -/
def sampleTilt : TiltEQ :=
  ⟨44100, 0, 1, 0, 0, [0], [0]⟩

/-- A concrete mono `TiltEQ` state whose sample rate 3200 makes the shelf's
`tan` argument exactly `pi / 4`. -/
def tiltAt3200 : TiltEQ :=
  ⟨3200, 0, 1, 0, 0, [0], [0]⟩

end Saturation

namespace Saturation

/-- C1: the waveshaper `tubeWaveshape` agrees with the spec's reference shape
function at every real input; `shape 0 = 0`; `shape 1` is within `1e-3` of
`0.8366`; `shape (-1)` is within `1e-3` of `-0.6866`; and the curve is not
odd-symmetric at 1: `shape 1 ≠ -shape (-1)`. -/
theorem tubeWaveshape_matches_spec :
    (∀ x : ℝ, tubeWaveshape x = shapeSpec x) ∧
    tubeWaveshape 0 = 0 ∧
    |tubeWaveshape 1 - 0.8366| ≤ 1e-3 ∧
    |tubeWaveshape (-1) - (-0.6866)| ≤ 1e-3 ∧
    tubeWaveshape 1 ≠ -tubeWaveshape (-1) := by
  have hshape1 : tubeWaveshape 1 = Real.tanh 1 + 0.075 := by
    simp only [tubeWaveshape]
    rw [abs_one]
    norm_num
  have hshapem1 : tubeWaveshape (-1) = -Real.tanh 1 + 0.075 := by
    simp only [tubeWaveshape]
    rw [abs_neg, abs_one, Real.tanh_neg]
    norm_num
  have hE0 : (0 : ℝ) < Real.exp 1 := Real.exp_pos 1
  have hEne : Real.exp 1 ≠ 0 := ne_of_gt hE0
  have htanh1 : Real.tanh 1 =
      (Real.exp 1 ^ 2 - 1) / (Real.exp 1 ^ 2 + 1) := by
    rw [Real.tanh_eq_sinh_div_cosh, Real.sinh_eq, Real.cosh_eq, Real.exp_neg]
    rw [div_div_div_cancel_right₀]
    · rw [div_eq_div_iff (by positivity) (by positivity)]
      field_simp
      rw [show Real.exp 2 = Real.exp 1 ^ 2 by rw [sq, ← Real.exp_add]; norm_num]
      ring
    · norm_num
  have hE1 : (2.7182818283 : ℝ) < Real.exp 1 := Real.exp_one_gt_d9
  have hE2 : Real.exp 1 < 2.7182818286 := Real.exp_one_lt_d9
  have hpos : (0 : ℝ) < Real.exp 1 ^ 2 + 1 := by positivity
  have ht_lo : (0.7615 : ℝ) ≤ Real.tanh 1 := by
    rw [htanh1, le_div_iff₀ hpos]
    nlinarith [mul_pos (sub_pos.mpr hE1) (sub_pos.mpr hE1)]
  have ht_hi : Real.tanh 1 ≤ (0.7616 : ℝ) := by
    rw [htanh1, div_le_iff₀ hpos]
    nlinarith [mul_pos (sub_pos.mpr hE2) (sub_pos.mpr hE2),
      mul_pos hE0 hE0]
  refine ⟨?_, ?_, ?_, ?_, ?_⟩
  · intro x
    simp only [tubeWaveshape, shapeSpec]
    ring
  · simp only [tubeWaveshape]
    rw [Real.tanh_zero]
    norm_num
  · rw [hshape1, abs_le]
    constructor <;> nlinarith [ht_lo, ht_hi]
  · rw [hshapem1, abs_le]
    constructor <;> nlinarith [ht_lo, ht_hi]
  · rw [hshape1, hshapem1]
    intro h
    nlinarith [h]

/-- C2: in the noise pass, the per-sample noise level
`noiseGain * (floorRatio + signalRatio * min env 1)` never exceeds the
linear gain `noiseGain = decibelsToGain (-60 + amount * 30)` implied by the
noise knob, for every envelope value `env ≥ 0`; moreover the two ratios sum to
1 with the signal part dominant. -/
theorem noiseLevel_capped_by_knob (amount env : ℝ) (_henv : 0 ≤ env) :
    floorRatio + signalRatio = 1 ∧ floorRatio < signalRatio ∧
    noiseLevelAt (decibelsToGain (-60 + amount * 30)) env ≤
      decibelsToGain (-60 + amount * 30) := by
  have hg : 0 < decibelsToGain (-60 + amount * 30) :=
    Real.rpow_pos_of_pos (by norm_num) _
  refine ⟨by norm_num [floorRatio, signalRatio],
          by norm_num [floorRatio, signalRatio], ?_⟩
  have hm : min env 1 ≤ 1 := min_le_right _ _
  simp only [noiseLevelAt, floorRatio, signalRatio]
  nlinarith [mul_nonneg hg.le (sub_nonneg.mpr hm)]

/-- Witness for C2 at a concrete hot envelope: `amount = 1`, `env = 2`. -/
theorem noiseLevel_capped_by_knob_witness :
    floorRatio + signalRatio = 1 ∧ floorRatio < signalRatio ∧
    noiseLevelAt (decibelsToGain (-60 + 1 * 30)) 2 ≤
      decibelsToGain (-60 + 1 * 30) :=
  noiseLevel_capped_by_knob 1 2 (by norm_num)

theorem getD_set_self {α : Type} (l : List α) (i : ℕ) (a d : α)
    (h : i < l.length) : (l.set i a).getD i d = a := by
  rw [List.getD_eq_getElem?_getD, List.getElem?_set_self h, Option.getD_some]

theorem getD_set_ne {α : Type} (l : List α) {i j : ℕ} (h : i ≠ j) (a d : α) :
    (l.set i a).getD j d = l.getD j d := by
  rw [List.getD_eq_getElem?_getD, List.getElem?_set_ne h,
    ← List.getD_eq_getElem?_getD]

theorem tiltEq_processSeq_identity_aux (ch : ℕ) (inputs : List ℝ) :
    ∀ s : TiltEQ, s.a0 = 1 → s.a1 = s.b1 →
      s.x1.getD ch 0 = s.y1.getD ch 0 → ch < s.x1.length → ch < s.y1.length →
      (TiltEQ.processSeq ch s inputs).1 = inputs := by
  induction inputs with
  | nil => intro s _ _ _ _ _; rfl
  | cons x xs ih =>
      intro s h0 h1 hxy hlx hly
      have hout : (TiltEQ.processSample s ch x).1 = x := by
        simp only [TiltEQ.processSample]
        rw [h0, h1, hxy]
        ring
      have hrest : (TiltEQ.processSeq ch (TiltEQ.processSample s ch x).2 xs).1 = xs := by
        refine ih _ ?_ ?_ ?_ ?_ ?_
        · simpa [TiltEQ.processSample] using h0
        · simpa [TiltEQ.processSample] using h1
        · simp only [TiltEQ.processSample]
          rw [getD_set_self _ _ _ _ hlx, getD_set_self _ _ _ _ hly]
          simp only [TiltEQ.processSample] at hout
          rw [hout]
        · simpa [TiltEQ.processSample] using hlx
        · simpa [TiltEQ.processSample] using hly
      simp only [TiltEQ.processSeq]
      rw [hout, hrest]

theorem tiltEq_coeffs_at_zero (s : TiltEQ) (htilt : s.tilt = 0)
    (ht : Real.tan (2 * Real.pi * 800 / s.sampleRate * 0.5) + 1 ≠ 0) :
    (TiltEQ.updateCoefficients s).a0 = 1 ∧
    (TiltEQ.updateCoefficients s).a1 = (TiltEQ.updateCoefficients s).b1 ∧
    (TiltEQ.updateCoefficients s).x1 = s.x1 ∧
    (TiltEQ.updateCoefficients s).y1 = s.y1 := by
  have hg : Real.rpow 10 (s.tilt * 6 / 20) = 1 := by
    rw [htilt]
    norm_num [Real.rpow_zero]
  refine ⟨?_, ?_, rfl, rfl⟩
  · simp only [TiltEQ.updateCoefficients, hg, mul_one, div_one]
    exact div_self ht
  · simp only [TiltEQ.updateCoefficients, hg, mul_one, div_one]

/-- C5: with tilt 0, after `updateCoefficients`, the tilt shelf is the
identity: starting from zeroed delay state on channel `ch`, processing any
input sequence returns it unchanged (exactly, in the real-number model), for
any sample rate at which the shelf's denominator `tan + 1` is nonzero. -/
theorem tiltEq_identity_at_zero_tilt (s : TiltEQ) (ch : ℕ) (inputs : List ℝ)
    (htilt : s.tilt = 0)
    (hx : s.x1.getD ch 0 = 0) (hy : s.y1.getD ch 0 = 0)
    (hlx : ch < s.x1.length) (hly : ch < s.y1.length)
    (ht : Real.tan (2 * Real.pi * 800 / s.sampleRate * 0.5) + 1 ≠ 0) :
    (TiltEQ.processSeq ch (TiltEQ.updateCoefficients s) inputs).1 = inputs := by
  obtain ⟨h0, h1, hxeq, hyeq⟩ := tiltEq_coeffs_at_zero s htilt ht
  refine tiltEq_processSeq_identity_aux ch inputs _ h0 h1 ?_ ?_ ?_
  · rw [hxeq, hyeq, hx, hy]
  · rw [hxeq]; exact hlx
  · rw [hyeq]; exact hly

/-- Witness for C5: at sample rate 3200 the shelf argument is `pi / 4`, and the
recomputed filter maps the concrete input `[1, -2]` to itself on channel 0. -/
theorem tiltEq_identity_at_zero_tilt_witness :
    (TiltEQ.processSeq 0 (TiltEQ.updateCoefficients tiltAt3200) [1, -2]).1
      = [1, -2] := by
  have harg : 2 * Real.pi * 800 / tiltAt3200.sampleRate * 0.5 = Real.pi / 4 := by
    show 2 * Real.pi * 800 / (3200 : ℝ) * 0.5 = Real.pi / 4
    ring
  refine tiltEq_identity_at_zero_tilt tiltAt3200 0 [1, -2] rfl
    (by simp [tiltAt3200]) (by simp [tiltAt3200])
    (by simp [tiltAt3200]) (by simp [tiltAt3200]) ?_
  rw [harg, Real.tan_pi_div_four]
  norm_num

/-- C6 counterexample: `setMix` and `setNoise` do not clamp; a value of 2
(outside the documented `[0, 1]` domain) is stored verbatim, so the stored mix
and noise are not in `[0, 1]`. -/
theorem setters_do_not_clamp :
    (sampleState.setMix 2).mix = 2 ∧ ¬ (sampleState.setMix 2).mix ≤ 1 ∧
    (sampleState.setNoise 2).noiseAmount = 2 ∧
    ¬ (sampleState.setNoise 2).noiseAmount ≤ 1 := by
  refine ⟨rfl, ?_, rfl, ?_⟩ <;>
    simp [TubeSaturation.setMix, TubeSaturation.setNoise, sampleState]

/-- C6 amended: every parameter setter of `TubeSaturation` stores its argument
unchanged — no clamping happens at the setter boundary (range enforcement is
left to the host's parameter layer). -/
theorem setters_store_raw_value (s : TubeSaturation) (v : ℝ)
    (makeLowPass : ℝ → ℝ → ℝ → ℝ × ℝ × ℝ × ℝ × ℝ) :
    (s.setMix v).mix = v ∧ (s.setNoise v).noiseAmount = v ∧
    (s.setTone makeLowPass v).toneFrequency = v ∧
    (s.setNoiseHP v).noiseHPFrequency = v := by
  refine ⟨rfl, rfl, ?_, ?_⟩
  · simp only [TubeSaturation.setTone, TubeSaturation.updateToneFilter]
    split <;> rfl
  · simp only [TubeSaturation.setNoiseHP, TubeSaturation.updateNoiseHPCoefficients]
    split <;> rfl

/-- C7 counterexample: `TiltEQ::updateCoefficients` has no sample-rate guard;
at the non-positive sample rate -1 it recomputes the coefficients (the stored
`a1` changes from 0 to -1), so the state does not remain unchanged. -/
theorem tiltEq_update_not_guarded :
    TiltEQ.updateCoefficients ⟨-1, 0, 1, 0, 0, [], []⟩ ≠ ⟨-1, 0, 1, 0, 0, [], []⟩ := by
  intro h
  have harg : 2 * Real.pi * 800 / (-1 : ℝ) * 0.5 = ((-800 : ℤ) : ℝ) * Real.pi := by
    push_cast
    ring
  have htan : Real.tan (2 * Real.pi * 800 / (-1 : ℝ) * 0.5) = 0 := by
    rw [harg, Real.tan_eq_sin_div_cos, Real.sin_int_mul_pi]
    simp
  have hg : Real.rpow 10 ((0 : ℝ) * 6 / 20) = 1 := by
    norm_num [Real.rpow_zero]
  have ha := congrArg TiltEQ.a1 h
  simp only [TiltEQ.updateCoefficients, htan, hg] at ha
  norm_num at ha

/-- C7 amended: the two guarded recomputation paths of the noise-capable
variant, `updateToneFilter` and `updateNoiseHPCoefficients`, leave the state
unchanged whenever the configured sample rate is non-positive (retaining the
stale coefficients), for any library low-pass design function. -/
theorem guarded_updates_keep_state (s : TubeSaturation)
    (makeLowPass : ℝ → ℝ → ℝ → ℝ × ℝ × ℝ × ℝ × ℝ)
    (h : s.sampleRate ≤ 0) :
    s.updateToneFilter makeLowPass = s ∧ s.updateNoiseHPCoefficients = s := by
  constructor
  · unfold TubeSaturation.updateToneFilter
    rw [if_neg (not_lt.mpr h)]
  · unfold TubeSaturation.updateNoiseHPCoefficients
    rw [if_neg (not_lt.mpr h)]

/-- Witness for C7's amended statement at the concrete sample rate 0. -/
theorem guarded_updates_keep_state_witness :
    ({ sampleState with sampleRate := 0 } : TubeSaturation).updateToneFilter
        (fun _ _ _ => (0, 0, 0, 0, 0)) = { sampleState with sampleRate := 0 } ∧
    ({ sampleState with sampleRate := 0 } : TubeSaturation).updateNoiseHPCoefficients
        = { sampleState with sampleRate := 0 } :=
  guarded_updates_keep_state _ _ (by norm_num)

/-- C10: a `setTilt` call whose argument is within 0.001 of the stored tilt
leaves the entire `TiltEQ` state unchanged: tilt, coefficients and delay lines
all keep their previous values. -/
theorem setTilt_small_change_is_noop (s : TiltEQ) (v : ℝ)
    (h : |v - s.tilt| ≤ 0.001) :
    s.setTilt v = s := by
  unfold TiltEQ.setTilt
  rw [if_neg (not_lt.mpr h)]

/-- Witness for C10: moving the tilt from 0 to 0.0005 changes nothing. -/
theorem setTilt_small_change_is_noop_witness :
    sampleTilt.setTilt 0.0005 = sampleTilt :=
  setTilt_small_change_is_noop sampleTilt 0.0005 (by norm_num [sampleTilt, abs_le])

theorem not_mem_cons_split {α : Type} {i j : α} {l : List α}
    (h : i ∉ j :: l) : i ≠ j ∧ i ∉ l :=
  ⟨fun he => h (he ▸ List.mem_cons_self j l),
   fun hm => h (List.mem_cons_of_mem j hm)⟩

theorem testBit_counter_xor (m i : ℕ) :
    (m ^^^ (m + 1)).testBit i = decide (2 ^ i ∣ (m + 1)) := by
  induction i generalizing m with
  | zero =>
      rw [Nat.testBit_xor, Nat.testBit_zero, Nat.testBit_zero, pow_zero]
      rcases Nat.mod_two_eq_zero_or_one m with h | h
      · have h1 : (m + 1) % 2 = 1 := by omega
        simp [h, h1]
      · have h1 : (m + 1) % 2 = 0 := by omega
        simp [h, h1]
  | succ i ih =>
      rw [Nat.testBit_xor, Nat.testBit_succ, Nat.testBit_succ, ← Nat.testBit_xor]
      rcases Nat.mod_two_eq_zero_or_one m with h | h
      · have hdiv : (m + 1) / 2 = m / 2 := by omega
        rw [hdiv, Nat.xor_self, Nat.zero_testBit]
        have hodd : ¬ 2 ^ (i + 1) ∣ (m + 1) := by
          intro hdvd
          have h2 : (2 : ℕ) ∣ (m + 1) :=
            dvd_trans (dvd_pow_self 2 (Nat.succ_ne_zero i)) hdvd
          omega
        simp [hodd]
      · have hdiv : (m + 1) / 2 = m / 2 + 1 := by omega
        rw [hdiv, ih]
        have hiff : 2 ^ i ∣ (m / 2 + 1) ↔ 2 ^ (i + 1) ∣ (m + 1) := by
          have hm : m + 1 = 2 * (m / 2 + 1) := by omega
          rw [hm, pow_succ, mul_comm (2 ^ i) 2]
          exact (Nat.mul_dvd_mul_iff_left (by norm_num : 0 < 2)).symm
        exact decide_eq_decide.mpr hiff

theorem rowLoop_length (rng : ℕ → ℝ) (diff : ℕ) :
    ∀ (l : List ℕ) (rows : List ℝ) (sum : ℝ) (idx : ℕ),
      (rowLoop rng diff l (rows, sum, idx)).1.length = rows.length := by
  intro l
  induction l with
  | nil => intro rows sum idx; rfl
  | cons j rest ih =>
      intro rows sum idx
      simp only [rowLoop]
      by_cases hbj : Nat.testBit diff j = true
      · rw [if_pos hbj, ih, List.length_set]
      · rw [if_neg hbj, ih]

theorem rowLoop_idx (rng : ℕ → ℝ) (diff : ℕ) :
    ∀ (l : List ℕ) (rows : List ℝ) (sum : ℝ) (idx : ℕ),
      (rowLoop rng diff l (rows, sum, idx)).2.2 =
        idx + l.countP (fun j => Nat.testBit diff j) := by
  intro l
  induction l with
  | nil => intro rows sum idx; simp [rowLoop]
  | cons j rest ih =>
      intro rows sum idx
      simp only [rowLoop]
      by_cases hbj : Nat.testBit diff j = true
      · rw [if_pos hbj, ih, List.countP_cons]
        simp [hbj]
        omega
      · rw [if_neg hbj, ih, List.countP_cons]
        simp [hbj]

theorem rowLoop_getD_not_mem (rng : ℕ → ℝ) (diff : ℕ) (i : ℕ) :
    ∀ (l : List ℕ) (rows : List ℝ) (sum : ℝ) (idx : ℕ), i ∉ l →
      ((rowLoop rng diff l (rows, sum, idx)).1).getD i 0 = rows.getD i 0 := by
  intro l
  induction l with
  | nil => intro rows sum idx _; rfl
  | cons j rest ih =>
      intro rows sum idx h
      obtain ⟨hij, h'⟩ := not_mem_cons_split h
      simp only [rowLoop]
      by_cases hbj : Nat.testBit diff j = true
      · rw [if_pos hbj, ih _ _ _ h', getD_set_ne _ (Ne.symm hij)]
      · rw [if_neg hbj, ih _ _ _ h']

theorem rowLoop_getD_bit_false (rng : ℕ → ℝ) (diff : ℕ) (i : ℕ)
    (hbit : Nat.testBit diff i = false) :
    ∀ (l : List ℕ) (rows : List ℝ) (sum : ℝ) (idx : ℕ),
      ((rowLoop rng diff l (rows, sum, idx)).1).getD i 0 = rows.getD i 0 := by
  intro l
  induction l with
  | nil => intro rows sum idx; rfl
  | cons j rest ih =>
      intro rows sum idx
      simp only [rowLoop]
      by_cases hbj : Nat.testBit diff j = true
      · have hji : j ≠ i := by
          intro he
          subst he
          rw [hbit] at hbj
          exact Bool.noConfusion hbj
        rw [if_pos hbj, ih, getD_set_ne _ hji]
      · rw [if_neg hbj, ih]

theorem rowLoop_getD_append (rng : ℕ → ℝ) (diff : ℕ) (i : ℕ)
    (hbit : Nat.testBit diff i = true) :
    ∀ (l₁ l₂ : List ℕ) (rows : List ℝ) (sum : ℝ) (idx : ℕ),
      i ∉ l₁ → i ∉ l₂ → i < rows.length →
      ((rowLoop rng diff (l₁ ++ i :: l₂) (rows, sum, idx)).1).getD i 0 =
        2 * rng (idx + l₁.countP (fun j => Nat.testBit diff j)) - 1 := by
  intro l₁
  induction l₁ with
  | nil =>
      intro l₂ rows sum idx _ h2 hlen
      rw [List.nil_append]
      simp only [rowLoop]
      rw [if_pos hbit, rowLoop_getD_not_mem _ _ _ _ _ _ _ h2,
        getD_set_self _ _ _ _ hlen]
      simp
  | cons j l₁' ih =>
      intro l₂ rows sum idx h1 h2 hlen
      obtain ⟨hij, h1'⟩ := not_mem_cons_split h1
      rw [List.cons_append]
      simp only [rowLoop]
      by_cases hbj : Nat.testBit diff j = true
      · rw [if_pos hbj, ih l₂ _ _ _ h1' h2 (by rw [List.length_set]; exact hlen),
          List.countP_cons]
        have harg : idx + (l₁'.countP (fun j => Nat.testBit diff j) +
            if Nat.testBit diff j = true then 1 else 0) =
            idx + 1 + l₁'.countP (fun j => Nat.testBit diff j) := by
          simp [hbj]
          omega
        rw [harg]
      · rw [if_neg hbj, ih l₂ _ _ _ h1' h2 hlen, List.countP_cons]
        simp [hbj]

theorem sum_set_sub (rows : List ℝ) (j : ℕ) (a : ℝ) (hj : j < rows.length) :
    Finset.sum (Finset.range rows.length)
      (fun k => (rows.set j a).getD k 0 - rows.getD k 0) = a - rows.getD j 0 := by
  rw [Finset.sum_eq_single j]
  · rw [getD_set_self _ _ _ _ hj]
  · intro b _ hb
    rw [getD_set_ne _ (Ne.symm hb), sub_self]
  · intro hnot
    exact absurd (Finset.mem_range.mpr hj) hnot

theorem rowLoop_sum (rng : ℕ → ℝ) (diff : ℕ) :
    ∀ (l : List ℕ) (rows : List ℝ) (sum : ℝ) (idx : ℕ),
      (∀ j ∈ l, Nat.testBit diff j = true → j < rows.length) →
      (rowLoop rng diff l (rows, sum, idx)).2.1 =
        sum + Finset.sum (Finset.range rows.length)
          (fun k => ((rowLoop rng diff l (rows, sum, idx)).1).getD k 0 - rows.getD k 0) := by
  intro l
  induction l with
  | nil =>
      intro rows sum idx _
      simp [rowLoop]
  | cons j rest ih =>
      intro rows sum idx hb
      simp only [rowLoop]
      by_cases hbj : Nat.testBit diff j = true
      · have hj : j < rows.length := hb j (List.mem_cons_self j rest) hbj
        rw [if_pos hbj]
        have hb' : ∀ x ∈ rest, Nat.testBit diff x = true →
            x < (rows.set j (2 * rng idx - 1)).length := by
          intro x hx hbx
          rw [List.length_set]
          exact hb x (List.mem_cons_of_mem j hx) hbx
        rw [ih _ _ _ hb']
        rw [List.length_set]
        have hsplit : ∀ k,
            ((rowLoop rng diff rest (rows.set j (2 * rng idx - 1),
                sum - rows.getD j 0 + (2 * rng idx - 1), idx + 1)).1).getD k 0 -
              rows.getD k 0 =
            (((rowLoop rng diff rest (rows.set j (2 * rng idx - 1),
                sum - rows.getD j 0 + (2 * rng idx - 1), idx + 1)).1).getD k 0 -
              (rows.set j (2 * rng idx - 1)).getD k 0) +
            ((rows.set j (2 * rng idx - 1)).getD k 0 - rows.getD k 0) := by
          intro k
          ring
        rw [Finset.sum_congr rfl (fun k _ => hsplit k), Finset.sum_add_distrib,
          sum_set_sub rows j _ hj]
        ring
      · rw [if_neg hbj]
        exact ih _ _ _ (fun x hx hbx => hb x (List.mem_cons_of_mem j hx) hbx)

theorem range_split (i n : ℕ) (h : i < n) :
    List.range n = List.range i ++
      i :: ((List.range (n - i - 1)).map (fun x => i + 1 + x)) := by
  conv_lhs => rw [show n = i + (n - i - 1 + 1) by omega]
  rw [List.range_add]
  congr 1
  rw [List.range_succ_eq_map]
  simp only [List.map_cons, Nat.add_zero, List.map_map]
  have hfun : ((fun x => i + x) ∘ Nat.succ) = fun x => i + 1 + x := by
    funext x
    simp only [Function.comp_apply]
    omega
  rw [hfun]

theorem not_mem_range_self (i : ℕ) : i ∉ List.range i := by
  simp [List.mem_range]

theorem not_mem_range_shifted (i k : ℕ) :
    i ∉ (List.range k).map (fun x => i + 1 + x) := by
  simp only [List.mem_map, List.mem_range]
  rintro ⟨x, _, hx⟩
  omega

theorem rowLoop_range_getD_fresh (rng : ℕ → ℝ) (diff : ℕ) (i : ℕ)
    (hi : i < numRows) (rows : List ℝ) (sum : ℝ) (idx : ℕ)
    (hlen : rows.length = numRows) (hb : Nat.testBit diff i = true)
    (hall : ∀ j, j < i → Nat.testBit diff j = true) :
    ((rowLoop rng diff (List.range numRows) (rows, sum, idx)).1).getD i 0 =
      2 * rng (idx + i) - 1 := by
  rw [range_split i numRows hi]
  rw [rowLoop_getD_append rng diff i hb _ _ _ _ _ (not_mem_range_self i)
    (not_mem_range_shifted i _) (hlen ▸ hi)]
  have hcnt : (List.range i).countP (fun j => Nat.testBit diff j) = i := by
    rw [List.countP_eq_length.mpr (fun j hj => hall j (List.mem_range.mp hj)),
      List.length_range]
  rw [hcnt]

/-- C9: characterization of the n-th `nextSample` call.  If the generator's
counter reads `n - 1` (as it does on the n-th call after `reset`), then:
the counter advances to `n`; exactly the rows `i` with `2 ^ i` dividing `n`
are redrawn, row `i` receiving the fresh uniform value `2 * rng (rngIdx + i) - 1`
(which lies in `[-1, 1]`), all other rows keeping their old values; the running
sum is adjusted by exactly the redrawn rows' deltas (old value subtracted,
fresh value added); one further independent draw is consumed as the white
component; and the returned sample is `(runningSum + white) / (numRows + 1)`. -/
theorem pinkNoise_nth_call (rng : ℕ → ℝ) (g : PinkNoiseGenerator) (n : ℕ)
    (hrows : g.rows.length = numRows) (hn : g.counter + 1 = n)
    (hrng : ∀ k, 0 ≤ rng k ∧ rng k ≤ 1) :
    (PinkNoiseGenerator.nextSample rng g).2.counter = n ∧
    (∀ i, i < numRows →
      (2 ^ i ∣ n →
        (PinkNoiseGenerator.nextSample rng g).2.rows.getD i 0 =
          2 * rng (g.rngIdx + i) - 1 ∧
        |(PinkNoiseGenerator.nextSample rng g).2.rows.getD i 0| ≤ 1) ∧
      (¬ 2 ^ i ∣ n →
        (PinkNoiseGenerator.nextSample rng g).2.rows.getD i 0 =
          g.rows.getD i 0)) ∧
    (PinkNoiseGenerator.nextSample rng g).2.runningSum = g.runningSum +
      Finset.sum (Finset.range numRows) (fun k =>
        (PinkNoiseGenerator.nextSample rng g).2.rows.getD k 0 -
          g.rows.getD k 0) ∧
    (PinkNoiseGenerator.nextSample rng g).2.rngIdx =
      g.rngIdx + (List.range numRows).countP (fun i => decide (2 ^ i ∣ n)) + 1 ∧
    (PinkNoiseGenerator.nextSample rng g).1 =
      ((PinkNoiseGenerator.nextSample rng g).2.runningSum +
        (2 * rng (g.rngIdx +
          (List.range numRows).countP (fun i => decide (2 ^ i ∣ n))) - 1)) /
      (numRows + 1) := by
  subst hn
  have hbit : ∀ i, Nat.testBit (g.counter ^^^ (g.counter + 1)) i =
      decide (2 ^ i ∣ (g.counter + 1)) :=
    fun i => testBit_counter_xor g.counter i
  have hcount : (List.range numRows).countP
        (fun j => Nat.testBit (g.counter ^^^ (g.counter + 1)) j) =
      (List.range numRows).countP (fun i => decide (2 ^ i ∣ (g.counter + 1))) := by
    rw [List.countP_eq_length_filter, List.countP_eq_length_filter]
    exact congrArg List.length (List.filter_congr (fun x _ => hbit x))
  have hidx := rowLoop_idx rng (g.counter ^^^ (g.counter + 1))
    (List.range numRows) g.rows g.runningSum g.rngIdx
  simp only [PinkNoiseGenerator.nextSample]
  refine ⟨trivial, ?_, ?_, ?_, ?_⟩
  · intro i hi
    constructor
    · intro hdvd
      have hb : Nat.testBit (g.counter ^^^ (g.counter + 1)) i = true := by
        rw [hbit]
        exact decide_eq_true hdvd
      have hall : ∀ j, j < i →
          Nat.testBit (g.counter ^^^ (g.counter + 1)) j = true := by
        intro j hj
        rw [hbit]
        exact decide_eq_true
          (dvd_trans (pow_dvd_pow 2 (Nat.le_of_lt hj)) hdvd)
      have hfresh := rowLoop_range_getD_fresh rng (g.counter ^^^ (g.counter + 1))
        i hi g.rows g.runningSum g.rngIdx hrows hb hall
      refine ⟨hfresh, ?_⟩
      rw [hfresh]
      obtain ⟨h1, h2⟩ := hrng (g.rngIdx + i)
      rw [abs_le]
      constructor <;> linarith
    · intro hnd
      have hb : Nat.testBit (g.counter ^^^ (g.counter + 1)) i = false := by
        rw [hbit]
        exact decide_eq_false hnd
      exact rowLoop_getD_bit_false rng _ i hb (List.range numRows)
        g.rows g.runningSum g.rngIdx
  · have hs := rowLoop_sum rng (g.counter ^^^ (g.counter + 1))
      (List.range numRows) g.rows g.runningSum g.rngIdx
      (fun j hj _ => hrows ▸ List.mem_range.mp hj)
    rw [hrows] at hs
    exact hs
  · rw [hidx, hcount]
  · rw [hidx, hcount]

/-- Witness for C9: the first call after reset (counter 0, so n = 1) redraws
row 0 with the fresh value `2 * 0.5 - 1` and advances the counter to 1, under
the constant draw stream `0.5`. -/
theorem pinkNoise_nth_call_witness :
    (PinkNoiseGenerator.nextSample (fun _ => (1 / 2 : ℝ))
        (PinkNoiseGenerator.reset ⟨[], 0, 0, 0⟩)).2.counter = 1 ∧
    (PinkNoiseGenerator.nextSample (fun _ => (1 / 2 : ℝ))
        (PinkNoiseGenerator.reset ⟨[], 0, 0, 0⟩)).2.rows.getD 0 0 =
      2 * (1 / 2 : ℝ) - 1 := by
  have h := pinkNoise_nth_call (fun _ => (1 / 2 : ℝ))
    (PinkNoiseGenerator.reset ⟨[], 0, 0, 0⟩) 1
    (by simp [PinkNoiseGenerator.reset]) rfl
    (fun k => ⟨by norm_num, by norm_num⟩)
  exact ⟨h.1, ((h.2.1 0 (by norm_num [numRows])).1 (one_dvd 1)).1⟩

theorem noiseChannelLoop_length (rng1 : ℕ → ℝ) (attack release alpha gain : ℝ) :
    ∀ (xs : List ℝ) (env hpY hpX : ℝ) (gen : PinkNoiseGenerator),
      (noiseChannelLoop rng1 attack release alpha gain xs env hpY hpX gen).1.length
        = xs.length := by
  intro xs
  induction xs with
  | nil => intro env hpY hpX gen; rfl
  | cons x xs ih =>
      intro env hpY hpX gen
      simp only [noiseChannelLoop, List.length_cons, ih]

theorem addAnalogNoiseGo_spec (rng : ℕ → ℕ → ℝ)
    (attack release alpha gain : ℝ) :
    ∀ (bufs : List (List ℝ)) (ch : ℕ) (envs hpYs hpXs : List ℝ)
      (gens : List PinkNoiseGenerator),
      ch + bufs.length ≤ envs.length → ch + bufs.length ≤ hpYs.length →
      ch + bufs.length ≤ hpXs.length → ch + bufs.length ≤ gens.length →
      ∃ out, addAnalogNoiseGo rng attack release alpha gain ch bufs
          envs hpYs hpXs gens = some out ∧
        out.1.map List.length = bufs.map List.length := by
  intro bufs
  induction bufs with
  | nil =>
      intro ch envs hpYs hpXs gens _ _ _ _
      exact ⟨([], envs, hpYs, hpXs, gens), rfl, rfl⟩
  | cons row rest ih =>
      intro ch envs hpYs hpXs gens h1 h2 h3 h4
      simp only [List.length_cons] at h1 h2 h3 h4
      have hc1 : ch < envs.length := by omega
      have hc2 : ch < hpYs.length := by omega
      have hc3 : ch < hpXs.length := by omega
      have hc4 : ch < gens.length := by omega
      have he : envs[ch]? = some envs[ch] := List.getElem?_eq_getElem hc1
      have hy : hpYs[ch]? = some hpYs[ch] := List.getElem?_eq_getElem hc2
      have hx : hpXs[ch]? = some hpXs[ch] := List.getElem?_eq_getElem hc3
      have hg : gens[ch]? = some gens[ch] := List.getElem?_eq_getElem hc4
      simp only [addAnalogNoiseGo, he, hy, hx, hg]
      obtain ⟨out, hout, hshape⟩ := ih (ch + 1)
        (envs.set ch (noiseChannelLoop (rng ch) attack release alpha gain row
          envs[ch] hpYs[ch] hpXs[ch] gens[ch]).2.1)
        (hpYs.set ch (noiseChannelLoop (rng ch) attack release alpha gain row
          envs[ch] hpYs[ch] hpXs[ch] gens[ch]).2.2.1)
        (hpXs.set ch (noiseChannelLoop (rng ch) attack release alpha gain row
          envs[ch] hpYs[ch] hpXs[ch] gens[ch]).2.2.2.1)
        (gens.set ch (noiseChannelLoop (rng ch) attack release alpha gain row
          envs[ch] hpYs[ch] hpXs[ch] gens[ch]).2.2.2.2)
        (by rw [List.length_set]; omega) (by rw [List.length_set]; omega)
        (by rw [List.length_set]; omega) (by rw [List.length_set]; omega)
      rw [hout]
      refine ⟨_, rfl, ?_⟩
      simp only [List.map_cons, hshape, noiseChannelLoop_length]

theorem addAnalogNoise_spec (rng : ℕ → ℕ → ℝ) (s : TubeSaturation)
    (input : Buffer)
    (h1 : input.length ≤ s.envelopeState.length)
    (h2 : input.length ≤ s.noiseHPState.length)
    (h3 : input.length ≤ s.noiseHPPrevInput.length)
    (h4 : input.length ≤ s.pinkNoise.length) :
    ∃ out, TubeSaturation.addAnalogNoise rng s input = some out ∧
      out.1.map List.length = input.map List.length ∧
      out.2.mix = s.mix ∧ out.2.noiseAmount = s.noiseAmount := by
  obtain ⟨go, hgo, hshape⟩ := addAnalogNoiseGo_spec rng s.envelopeAttack
    s.envelopeRelease s.noiseHPAlpha (decibelsToGain (-60 + s.noiseAmount * 30))
    input 0 s.envelopeState s.noiseHPState s.noiseHPPrevInput s.pinkNoise
    (by omega) (by omega) (by omega) (by omega)
  unfold TubeSaturation.addAnalogNoise
  dsimp only
  rw [hgo]
  exact ⟨_, rfl, hshape, rfl, rfl⟩

theorem waveshapeBuffer_shape (b : Buffer) :
    (waveshapeBuffer b).map List.length = b.map List.length := by
  induction b with
  | nil => rfl
  | cons row rest ih =>
      simp only [waveshapeBuffer, List.map_cons, List.length_map] at ih ⊢
      rw [ih]

theorem zipWith_blend_zero : ∀ (r1 r2 : List ℝ), r1.length = r2.length →
    List.zipWith (fun dv wv => dv * (1 - (0 : ℝ)) + wv * 0) r1 r2 = r1 := by
  intro r1
  induction r1 with
  | nil => intro r2 _; rfl
  | cons d ds ih =>
      intro r2 hl
      cases r2 with
      | nil => simp at hl
      | cons w ws =>
          simp only [List.zipWith_cons_cons]
          have hh : d * (1 - (0 : ℝ)) + w * 0 = d := by ring
          rw [hh, ih ws (by simpa using hl)]

theorem mixBlend_zero : ∀ dry wet : Buffer,
    dry.map List.length = wet.map List.length → mixBlend 0 dry wet = dry := by
  intro dry
  induction dry with
  | nil => intro wet _; rfl
  | cons d ds ih =>
      intro wet hs
      cases wet with
      | nil => simp at hs
      | cons w ws =>
          simp only [List.map_cons, List.cons.injEq] at hs
          simp only [mixBlend, List.zipWith_cons_cons]
          rw [zipWith_blend_zero d w hs.1]
          have htail := ih ws hs.2
          simp only [mixBlend] at htail
          rw [htail]

theorem process_eval (preG toneF postG : Buffer → Buffer) (rng : ℕ → ℕ → ℝ)
    (s : TubeSaturation) (buffer : Buffer)
    (hpre : ∀ b, (preG b).map List.length = b.map List.length)
    (htone : ∀ b, (toneF b).map List.length = b.map List.length)
    (hpost : ∀ b, (postG b).map List.length = b.map List.length)
    (hfit1 : buffer.length ≤ s.dryChannels)
    (hfit2 : ∀ row ∈ buffer, row.length ≤ s.maxBlockSize)
    (henv : buffer.length ≤ s.envelopeState.length)
    (hhpy : buffer.length ≤ s.noiseHPState.length)
    (hhpx : buffer.length ≤ s.noiseHPPrevInput.length)
    (hgen : buffer.length ≤ s.pinkNoise.length) :
    ∃ wet s', TubeSaturation.process preG toneF postG rng s buffer =
        some ((if s.mix < 1 then mixBlend s.mix buffer wet else wet), s') ∧
      wet.map List.length = buffer.map List.length := by
  have hshape3 : (toneF (waveshapeBuffer (preG buffer))).map List.length =
      buffer.map List.length := by
    rw [htone, waveshapeBuffer_shape, hpre]
  have hlen3 : (toneF (waveshapeBuffer (preG buffer))).length = buffer.length := by
    have h := congrArg List.length hshape3
    simpa using h
  unfold TubeSaturation.process
  rw [if_pos ⟨hfit1, hfit2⟩]
  dsimp only
  by_cases hna : 0 < s.noiseAmount
  · rw [if_pos hna]
    obtain ⟨out, hout, hshape4, _, _⟩ := addAnalogNoise_spec rng s
      (toneF (waveshapeBuffer (preG buffer)))
      (by omega) (by omega) (by omega) (by omega)
    rw [hout]
    refine ⟨postG out.1, out.2, rfl, ?_⟩
    rw [hpost, hshape4, hshape3]
  · rw [if_neg hna]
    refine ⟨postG (toneF (waveshapeBuffer (preG buffer))), s, rfl, ?_⟩
    rw [hpost, hshape3]

/-- C3: with the mix parameter stored as 0, `process` returns the input buffer
unchanged, for every input fitting the prepared sizes, every noise amount, and
any behavior of the JUCE gain and tone-filter library stages (quantified as
arbitrary shape-preserving transforms). -/
theorem process_mix_zero_is_identity (preG toneF postG : Buffer → Buffer)
    (rng : ℕ → ℕ → ℝ) (s : TubeSaturation) (buffer : Buffer)
    (hpre : ∀ b, (preG b).map List.length = b.map List.length)
    (htone : ∀ b, (toneF b).map List.length = b.map List.length)
    (hpost : ∀ b, (postG b).map List.length = b.map List.length)
    (hmix : s.mix = 0)
    (hfit1 : buffer.length ≤ s.dryChannels)
    (hfit2 : ∀ row ∈ buffer, row.length ≤ s.maxBlockSize)
    (henv : buffer.length ≤ s.envelopeState.length)
    (hhpy : buffer.length ≤ s.noiseHPState.length)
    (hhpx : buffer.length ≤ s.noiseHPPrevInput.length)
    (hgen : buffer.length ≤ s.pinkNoise.length) :
    ∃ s', TubeSaturation.process preG toneF postG rng s buffer =
      some (buffer, s') := by
  obtain ⟨wet, s', heq, hshape⟩ := process_eval preG toneF postG rng s buffer
    hpre htone hpost hfit1 hfit2 henv hhpy hhpx hgen
  refine ⟨s', ?_⟩
  rw [heq, hmix, if_pos (by norm_num : (0 : ℝ) < 1),
    mixBlend_zero buffer wet hshape.symm]

/-- Witness for C3: a concrete one-channel, one-sample run with mix 0 and
identity library stages returns the input `[[1]]` exactly. -/
theorem process_mix_zero_is_identity_witness :
    ∃ s', TubeSaturation.process id id id (fun _ _ => 0)
      { sampleState with mix := 0 } [[1]] = some ([[1]], s') :=
  process_mix_zero_is_identity id id id (fun _ _ => 0)
    { sampleState with mix := 0 } [[1]]
    (fun _ => rfl) (fun _ => rfl) (fun _ => rfl) rfl
    (by simp [sampleState]) (by simp [sampleState]) (by simp [sampleState])
    (by simp [sampleState]) (by simp [sampleState]) (by simp [sampleState])

/-- C4: with the noise amount stored as 0, `process` computes exactly what the
pipeline with the noise-injection stage entirely removed computes — the same
output buffer and the same final state, for every input and every behavior of
the library stages. -/
theorem process_noise_zero_skips_injection (preG toneF postG : Buffer → Buffer)
    (rng : ℕ → ℕ → ℝ) (s : TubeSaturation) (buffer : Buffer)
    (hnoise : s.noiseAmount = 0) :
    TubeSaturation.process preG toneF postG rng s buffer =
      TubeSaturation.processNoNoise preG toneF postG s buffer := by
  unfold TubeSaturation.process TubeSaturation.processNoNoise
  by_cases hfit : buffer.length ≤ s.dryChannels ∧
      ∀ row ∈ buffer, row.length ≤ s.maxBlockSize
  · rw [if_pos hfit, if_pos hfit, hnoise]
    simp only [if_neg (lt_irrefl (0 : ℝ))]
  · rw [if_neg hfit, if_neg hfit]

/-- Witness for C4 on a concrete state and buffer. -/
theorem process_noise_zero_skips_injection_witness :
    TubeSaturation.process id id id (fun _ _ => 0) sampleState [[1]] =
      TubeSaturation.processNoNoise id id id sampleState [[1]] :=
  process_noise_zero_skips_injection id id id (fun _ _ => 0) sampleState [[1]] rfl

/-- C8 counterexample: `process` does not truncate to the prepared channel
count.  With one prepared channel (`sampleState`) and a two-channel buffer, the
very first per-channel access (the dry copy into the one-channel `dryBuffer`)
is out of bounds, modelled as failure — the engine does not process
`min 1 2 = 1` channels. -/
theorem process_channel_overflow_fails :
    TubeSaturation.process id id id (fun _ _ => 0) sampleState [[0], [0]] =
      none := by
  unfold TubeSaturation.process
  rw [if_neg ?_]
  rintro ⟨h1, _⟩
  simp [sampleState] at h1

/-- C8 amended: whenever the buffer's channel count is at most the prepared
channel count (and its rows fit the prepared block size), every per-channel
access of `process` — dry buffer, envelope, noise high-pass state and
pink-noise generator — is in bounds and the call succeeds, for any
shape-preserving library stages. -/
theorem process_within_prepared_channels (preG toneF postG : Buffer → Buffer)
    (rng : ℕ → ℕ → ℝ) (s : TubeSaturation) (buffer : Buffer)
    (hpre : ∀ b, (preG b).map List.length = b.map List.length)
    (htone : ∀ b, (toneF b).map List.length = b.map List.length)
    (hpost : ∀ b, (postG b).map List.length = b.map List.length)
    (hfit1 : buffer.length ≤ s.dryChannels)
    (hfit2 : ∀ row ∈ buffer, row.length ≤ s.maxBlockSize)
    (henv : buffer.length ≤ s.envelopeState.length)
    (hhpy : buffer.length ≤ s.noiseHPState.length)
    (hhpx : buffer.length ≤ s.noiseHPPrevInput.length)
    (hgen : buffer.length ≤ s.pinkNoise.length) :
    (TubeSaturation.process preG toneF postG rng s buffer).isSome = true := by
  obtain ⟨wet, s', heq, _⟩ := process_eval preG toneF postG rng s buffer
    hpre htone hpost hfit1 hfit2 henv hhpy hhpx hgen
  rw [heq]
  rfl

/-- Witness for C8's amended statement: a two-sample mono buffer on the
one-channel prepared state processes successfully. -/
theorem process_within_prepared_channels_witness :
    (TubeSaturation.process id id id (fun _ _ => 0) sampleState
      [[1, 2]]).isSome = true :=
  process_within_prepared_channels id id id (fun _ _ => 0) sampleState [[1, 2]]
    (fun _ => rfl) (fun _ => rfl) (fun _ => rfl)
    (by simp [sampleState]) (by simp [sampleState]) (by simp [sampleState])
    (by simp [sampleState]) (by simp [sampleState]) (by simp [sampleState])

end Saturation
